import Mathlib

/-!
Verification of the telecheck-bot response-normalization and bulk-result
reconciliation core (`src/core.js`), shallowly embedded.  JavaScript values
reaching the core are modelled by `JVal` (numbers restricted to integers,
which is all the repository ever produces); JS truthiness, string coercion
and property lookup are modelled explicitly.
-/

namespace Telecheck

/-- A JSON-like JavaScript value as seen by the core. -/
inductive JVal where
  | null : JVal
  | undef : JVal
  | bool : Bool → JVal
  | num : Int → JVal
  | str : String → JVal
  | arr : List JVal → JVal
  | obj : List (String × JVal) → JVal
deriving Repr, Inhabited

/-- JS truthiness: `null`, `undefined`, `false`, `0` and `""` are falsy. -/
def truthy : JVal → Bool
  | .null => false
  | JVal.undef => false
  | .bool b => b
  | .num n => n != 0
  | .str s => s != ""
  | .arr _ => true
  | .obj _ => true

mutual

/-- JS `String(v)` coercion. -/
def jsToString : JVal → String
  | .null => "null"
  | JVal.undef => "undefined"
  | .bool true => "true"
  | .bool false => "false"
  | .num n => toString n
  | .str s => s
  | .obj _ => "[object Object]"
  | .arr es => jsArrToString es

/-- JS `Array.prototype.toString`: elements joined with commas,
`null`/`undefined` elements rendered as the empty string. -/
def jsArrToString : List JVal → String
  | [] => ""
  | e :: rest =>
    let head :=
      match e with
      | .null => ""
      | JVal.undef => ""
      | v => jsToString v
    match rest with
    | [] => head
    | _ => head ++ "," ++ jsArrToString rest

end

/-- Property lookup `o[k]`: `undefined` on non-objects and missing keys. -/
def getField : JVal → String → JVal
  | .obj fs, k =>
    match fs.find? (fun p => p.1 == k) with
    | some p => p.2
    | none => JVal.undef
  | _, _ => JVal.undef

/-- `Array.isArray` refinement: the element list when the value is an array. -/
def asArr : JVal → Option (List JVal)
  | .arr es => some es
  | _ => none

/-- A candidate field value is adopted by `pick` unless it is strictly equal
to `undefined`, `null` or the empty string. -/
def isPickable : JVal → Bool
  | JVal.undef => false
  | .null => false
  | .str s => s != ""
  | _ => true

def pickLoop (o : JVal) : List String → Option JVal
  | [] => none
  | k :: ks =>
    let v := getField o k
    if isPickable v then some v else pickLoop o ks

/-- `pick(obj, keys)` from `src/core.js`: first candidate field holding a
value other than `undefined`/`null`/`""`; `undefined` when `obj` is not a
(truthy) object. -/
def pick (o : JVal) (keys : List String) : Option JVal :=
  match o with
  | .arr _ => pickLoop o keys
  | .obj _ => pickLoop o keys
  | _ => none

def validVocab : List String := ["valid", "ok", "alive", "active", "true"]

def invalidVocab : List String := ["invalid", "bad", "dead", "false"]

/-- ASCII lower-casing, the fragment of JS `toLowerCase` that matters for
the fixed ASCII vocabularies. -/
def jsToLower (s : String) : String := ⟨s.data.map Char.toLower⟩

/-- `normalizeStatus(value)` from `src/core.js`. -/
def normalizeStatus (value : JVal) : String :=
  if !truthy value then "unknown"
  else if validVocab.contains (jsToLower (jsToString value)) then "valid"
  else if invalidVocab.contains (jsToLower (jsToString value)) then "invalid"
  else "unknown"

/-- The canonical `{link, status, reason}` triple. -/
structure LinkResult where
  link : String
  status : String
  reason : Option String
deriving Repr, DecidableEq, Inhabited

def linkKeys : List String := ["link", "url", "input", "username", "value"]

def statusKeys : List String := ["status", "result", "state", "validity", "type"]

def reasonKeys : List String := ["reason", "error", "message", "details"]

/-- `normalizeResult(item)` from `src/core.js`.  `pick(...) || "(unknown link)"`
and `reason ? String(reason) : null` use JS truthiness on the picked value. -/
def normalizeResult (item : JVal) : LinkResult :=
  let link :=
    match pick item linkKeys with
    | some v => if truthy v then jsToString v else "(unknown link)"
    | none => "(unknown link)"
  let status := normalizeStatus ((pick item statusKeys).getD JVal.undef)
  let reason :=
    match pick item reasonKeys with
    | some v => if truthy v then some (jsToString v) else none
    | none => none
  ⟨link, status, reason⟩

/-- Overwrite-or-append a single field, preserving property order:
the JS semantics of assigning `k` during object-literal spread. -/
def setField (fs : List (String × JVal)) (k : String) (v : JVal) : List (String × JVal) :=
  if fs.any (fun p => p.1 == k) then
    fs.map (fun p => if p.1 == k then (k, v) else p)
  else fs ++ [(k, v)]

/-- Spread `upd` into `base` (`{...base-literal, ...upd}`), later keys win. -/
def spreadInto (base : List (String × JVal)) (upd : List (String × JVal)) :
    List (String × JVal) :=
  upd.foldl (fun acc p => setField acc p.1 p.2) base

/-- `{ link: key, ...value }` for an object or array `value` (array spread
yields index-keyed fields, as in JS). -/
def mergeLinkRow (key : String) (value : JVal) : JVal :=
  match value with
  | .obj fs => .obj (spreadInto [("link", .str key)] fs)
  | .arr es => .obj (spreadInto [("link", .str key)] (es.enum.map (fun p => (toString p.1, p.2))))
  | _ => .obj [("link", .str key)]

/-- One synthesized bucket row `{ link, status }` of rule 3. -/
def bucketRow (l : JVal) (st : String) : JVal :=
  .obj [("link", l), ("status", .str st)]

/-- The rule-4 row for one key/value pair of a generic object, when any. -/
def byLinkRow (requestedLinks : List String) (kv : String × JVal) : Option JVal :=
  if requestedLinks.contains kv.1 then
    match kv.2 with
    | .str s => some (.obj [("link", .str kv.1), ("status", .str s)])
    | .obj fs => some (mergeLinkRow kv.1 (.obj fs))
    | .arr es => some (mergeLinkRow kv.1 (.arr es))
    | _ => none
  else none

/-- The `rows` constant of the bucket branch of `extractBulkRows`: the three
bucket arrays tagged and concatenated when any bucket field is an array,
empty otherwise. -/
def bucketRowsOf (data : JVal) : List JVal :=
  if (asArr (getField data "valid")).isSome ||
      (asArr (getField data "invalid")).isSome ||
      (asArr (getField data "unknown")).isSome then
    ((asArr (getField data "valid")).getD []).map (fun l => bucketRow l "valid") ++
    ((asArr (getField data "invalid")).getD []).map (fun l => bucketRow l "invalid") ++
    ((asArr (getField data "unknown")).getD []).map (fun l => bucketRow l "unknown")
  else []

/-- `extractBulkRows(data, requestedLinks)` from `src/core.js`:
shape detection over the untyped upstream payload. -/
def extractBulkRows (data : JVal) (requestedLinks : List String) :
    Option (List JVal) :=
  match asArr data with
  | some es => some es
  | none =>
  match asArr (getField data "results") with
  | some es => some es
  | none =>
  match asArr (getField data "data") with
  | some es => some es
  | none =>
  match asArr (getField data "items") with
  | some es => some es
  | none =>
    if !(bucketRowsOf data).isEmpty then some (bucketRowsOf data)
    else
      match data with
      | .obj fields =>
        if !(fields.filterMap (byLinkRow requestedLinks)).isEmpty then
          some (fields.filterMap (byLinkRow requestedLinks))
        else none
      | _ => none

/-- The sort key used by `orderResults`: `{valid:0, invalid:1, unknown:2}`,
`?? 99` for anything else. -/
def rank (status : String) : Nat :=
  if status == "valid" then 0
  else if status == "invalid" then 1
  else if status == "unknown" then 2
  else 99

/-- Stable insertion of one element into a rank-sorted list: placed before
the first element of strictly greater-or-equal... placed before the first
element whose rank is not smaller, so earlier inputs stay first among ties. -/
def insertByRank (r : LinkResult) : List LinkResult → List LinkResult
  | [] => [r]
  | x :: xs =>
    if rank r.status ≤ rank x.status then r :: x :: xs
    else x :: insertByRank r xs

/-- `orderResults(results)` from `src/core.js`: `[...results].sort(cmp)` with
the (specified-stable) comparator `rank a - rank b`, modelled as a stable
insertion sort on a copy. -/
def orderResults (results : List LinkResult) : List LinkResult :=
  results.foldr insertByRank []

/-- One display body line: status glyph followed by the link. -/
def fmtLine (r : LinkResult) : String :=
  (if r.status == "valid" then "[V]"
   else if r.status == "invalid" then "[X]" else "[?]") ++ " " ++ r.link

/-- `buildBulkLines(results, options)` from `src/core.js`.  The
`options.showInvalid !== false` default is modelled by an `Option Bool`. -/
def buildBulkLines (results : List LinkResult) (showInvalidOpt : Option Bool) :
    List String :=
  let showInvalid : Bool := showInvalidOpt != some false
  let validCount := (results.filter (fun r => r.status == "valid")).length
  let invalidCount := (results.filter (fun r => r.status == "invalid")).length
  let unknownCount := (results.filter (fun r => r.status == "unknown")).length
  let ordered := (orderResults results).filter
    (fun r => showInvalid || r.status != "invalid")
  let invalidSummary :=
    if showInvalid then "Invalid: " ++ toString invalidCount
    else "Invalid: " ++ toString invalidCount ++ " (hidden)"
  ("Done. Total: " ++ toString results.length) ::
  ("Valid: " ++ toString validCount) ::
  invalidSummary ::
  ("Unknown: " ++ toString unknownCount) ::
  "" ::
  ordered.map fmtLine

/-- The accumulator loop of `chunkLines`; `current` is the open chunk
(`""` meaning none, as JS truthiness of the accumulator string). -/
def chunkLinesGo (maxLen : Nat) : List String → String → List String
  | [], current => if current ≠ "" then [current] else []
  | line :: rest, current =>
    let next := if current ≠ "" then current ++ "\n" ++ line else line
    if next.length > maxLen ∧ current ≠ "" then
      current :: chunkLinesGo maxLen rest line
    else
      chunkLinesGo maxLen rest next

/-- `chunkLines(lines, maxLen)` from `src/core.js`. -/
def chunkLines (lines : List String) (maxLen : Nat := 3500) : List String :=
  chunkLinesGo maxLen lines ""

/-- Joining a list of text blocks with line breaks (the "rejoin" of the
idempotence property, and the join `chunkLines` itself performs). -/
def joinLines : List String → String
  | [] => ""
  | [l] => l
  | l :: rest => l ++ "\n" ++ joinLines rest

/-- `new Map(normalized.map(r => [r.link, r])).get(link)`: the last
normalized row carrying `link` wins, none when absent. -/
def byLinkGet (normalized : List LinkResult) (link : String) : Option LinkResult :=
  normalized.reverse.find? (fun r => r.link == link)

/-- The synthesized placeholder of the re-keying step of `checkBulk`. -/
def missingResult (link : String) : LinkResult :=
  normalizeResult (.obj [("link", .str link), ("status", .str "unknown"),
    ("reason", .str "Missing in bulk response")])

/-- The row-handling of one `checkBulk` attempt (`src/core.js`): extract rows,
normalize each, return as-is on an exact count match, re-key by link on a
positive mismatched count, and otherwise fall through (`none`) to the next
attempt / single-link fallback. -/
def reconcile (data : JVal) (links : List String) : Option (List LinkResult) :=
  match extractBulkRows data links with
  | none => none
  | some rows =>
    let normalized := rows.map normalizeResult
    if normalized.length = links.length then some normalized
    else if 0 < normalized.length then
      some (links.map (fun link => (byLinkGet normalized link).getD (missingResult link)))
    else none

/-! Companion definition for the refinement claim about shape detection:
the five rules exactly as the specification words them, combined by a
first-match-wins priority chain, to be compared with `extractBulkRows`. -/

/-- Spec rule 1: the payload itself is a list; use it as rows. -/
def ruleDirectList (payload : JVal) : Option (List JVal) := asArr payload

/-- Spec rule 2: a list-valued field named "results", "data" or "items",
tried in that priority order. -/
def ruleRowsField (payload : JVal) : Option (List JVal) :=
  match asArr (getField payload "results") with
  | some es => some es
  | none =>
    match asArr (getField payload "data") with
    | some es => some es
    | none => asArr (getField payload "items")

/-- Spec rule 3: list-valued "valid"/"invalid"/"unknown" buckets, synthesized
into tagged rows in that concatenation order, adopted only when non-empty. -/
def ruleBuckets (payload : JVal) : Option (List JVal) :=
  if (asArr (getField payload "valid")).isSome ||
      (asArr (getField payload "invalid")).isSome ||
      (asArr (getField payload "unknown")).isSome then
    if (bucketRowsOf payload).isEmpty then none else some (bucketRowsOf payload)
  else none

/-- Spec rule 4: a generic object, rows synthesized only from keys that are
among the requested links, adopted only when at least one row was produced. -/
def ruleByLink (payload : JVal) (requestedLinks : List String) :
    Option (List JVal) :=
  match payload with
  | .obj fields =>
    if (fields.filterMap (byLinkRow requestedLinks)).isEmpty then none
    else some (fields.filterMap (byLinkRow requestedLinks))
  | _ => none

/-- The spec's reconciler shape detection: rules 1-4 in fixed priority order,
first match wins, `none` (rule 5) signalling fallback. -/
def extractBulkRowsSpec (payload : JVal) (requestedLinks : List String) :
    Option (List JVal) :=
  (ruleDirectList payload).orElse fun _ =>
  (ruleRowsField payload).orElse fun _ =>
  (ruleBuckets payload).orElse fun _ =>
  ruleByLink payload requestedLinks

/-! Heap model for the frame claim: JS arrays live in a store and are passed
by reference, so in-place `.sort` on an aliased array would be observable.
`[...results].sort(cmp)` allocates a copy at a fresh reference, mutates only
that fresh cell, and returns its reference. -/

/-- A store of arrays; a reference is an index into it. -/
abbrev Store := List (List LinkResult)

/-- `orderResults` acting on the heap: spread-copy into a fresh cell, sort
that cell in place, return the fresh reference. -/
def orderResultsS (store : Store) (i : Nat) : List (List LinkResult) × Nat :=
  let src := List.getD store i []
  let copyIdx := List.length store
  let store1 := store ++ [src]
  let store2 := store1.set copyIdx (orderResults src)
  (store2, copyIdx)

/-- `buildBulkLines` acting on the heap: reads the input array for the
counts, orders through `orderResultsS`, and otherwise only builds fresh
lists (`filter`/`map` allocate, never mutate). -/
def buildBulkLinesS (store : Store) (i : Nat) (showInvalidOpt : Option Bool) :
    List (List LinkResult) × List String :=
  let results := List.getD store i []
  let showInvalid : Bool := showInvalidOpt != some false
  let validCount := (results.filter (fun r => r.status == "valid")).length
  let invalidCount := (results.filter (fun r => r.status == "invalid")).length
  let unknownCount := (results.filter (fun r => r.status == "unknown")).length
  let os := orderResultsS store i
  let ordered := (List.getD os.1 os.2 []).filter
    (fun r => showInvalid || r.status != "invalid")
  let invalidSummary :=
    if showInvalid then "Invalid: " ++ toString invalidCount
    else "Invalid: " ++ toString invalidCount ++ " (hidden)"
  (os.1,
    ("Done. Total: " ++ toString results.length) ::
    ("Valid: " ++ toString validCount) ::
    invalidSummary ::
    ("Unknown: " ++ toString unknownCount) ::
    "" ::
    ordered.map fmtLine)

/-! Theorems. -/

theorem normalizeStatus_mem (v : JVal) :
    normalizeStatus v = "valid" ∨ normalizeStatus v = "invalid" ∨
      normalizeStatus v = "unknown" := by
  unfold normalizeStatus
  split
  · exact Or.inr (Or.inr rfl)
  split
  · exact Or.inl rfl
  split
  · exact Or.inr (Or.inl rfl)
  · exact Or.inr (Or.inr rfl)

theorem contains_false_not_mem {s : String} {l : List String}
    (h : l.contains s = false) : s ∉ l := by
  intro hm
  have h' : List.elem s l = false := h
  rw [List.elem_eq_true_of_mem hm] at h'
  cases h'

theorem vocab_disjoint {s : String} (h : invalidVocab.contains s = true) :
    validVocab.contains s = false := by
  have hmem : s ∈ invalidVocab := List.mem_of_elem_eq_true h
  simp only [invalidVocab, List.mem_cons, List.not_mem_nil, or_false] at hmem
  rcases hmem with rfl | rfl | rfl | rfl <;> decide

/-- C9: every falsy raw status value (boolean false, number 0, empty string,
null, undefined) normalizes to "unknown"; in particular boolean false yields
"unknown", not "invalid", although the string "false" is in the invalid
vocabulary. -/
theorem normalizeStatus_falsy_thm :
    (∀ v : JVal, truthy v = false → normalizeStatus v = "unknown") ∧
    normalizeStatus (JVal.bool false) = "unknown" ∧
    normalizeStatus (JVal.num 0) = "unknown" ∧
    normalizeStatus (JVal.str "") = "unknown" ∧
    normalizeStatus JVal.null = "unknown" ∧
    normalizeStatus JVal.undef = "unknown" ∧
    invalidVocab.contains "false" = true ∧
    normalizeStatus (JVal.bool false) ≠ "invalid" := by
  refine ⟨fun v hv => ?_, rfl, by decide, rfl, rfl, rfl, by decide, by decide⟩
  unfold normalizeStatus
  rw [hv]
  rfl

theorem normalizeStatus_falsy_witness : normalizeStatus JVal.null = "unknown" :=
  normalizeStatus_falsy_thm.1 JVal.null rfl

/-- C7 counterexample: boolean false coerces to the string "false", which is
in the invalid vocabulary, yet normalization yields "unknown", not "invalid"
— the falsiness short-circuit fires before string coercion. -/
theorem normalizeStatus_bool_false_cex :
    invalidVocab.contains (jsToLower (jsToString (JVal.bool false))) = true ∧
    normalizeStatus (JVal.bool false) ≠ "invalid" ∧
    normalizeStatus (JVal.bool false) = "unknown" := by
  refine ⟨by decide, by decide, rfl⟩

/-- C7 (amended): for every truthy raw value whose lower-cased string form is
in the valid vocabulary, normalization yields "valid"; for every truthy value
whose lower-cased string form is in the invalid vocabulary, "invalid"; every
other value (falsy, or matching neither vocabulary) yields "unknown"; the
mapping never fails on non-string input, which is coerced to string. -/
theorem normalizeStatus_vocab_thm (v : JVal) :
    (truthy v = true → validVocab.contains (jsToLower (jsToString v)) = true →
      normalizeStatus v = "valid") ∧
    (truthy v = true → invalidVocab.contains (jsToLower (jsToString v)) = true →
      normalizeStatus v = "invalid") ∧
    ((truthy v = false ∨
        (validVocab.contains (jsToLower (jsToString v)) = false ∧
         invalidVocab.contains (jsToLower (jsToString v)) = false)) →
      normalizeStatus v = "unknown") := by
  refine ⟨fun ht hm => ?_, fun ht hm => ?_, fun h => ?_⟩
  · have hm' : jsToLower (jsToString v) ∈ validVocab := List.mem_of_elem_eq_true hm
    unfold normalizeStatus
    rw [ht]
    simp [hm']
  · have hm' : jsToLower (jsToString v) ∈ invalidVocab := List.mem_of_elem_eq_true hm
    have hnv : jsToLower (jsToString v) ∉ validVocab :=
      contains_false_not_mem (vocab_disjoint hm)
    unfold normalizeStatus
    rw [ht]
    simp [hm', hnv]
  · rcases h with hf | ⟨h1, h2⟩
    · unfold normalizeStatus
      rw [hf]
      rfl
    · rcases ht : truthy v with _ | _
      · unfold normalizeStatus
        rw [ht]
        rfl
      · have hn1 : jsToLower (jsToString v) ∉ validVocab := contains_false_not_mem h1
        have hn2 : jsToLower (jsToString v) ∉ invalidVocab := contains_false_not_mem h2
        unfold normalizeStatus
        rw [ht]
        simp [hn1, hn2]

theorem normalizeStatus_vocab_witness :
    normalizeStatus (JVal.str "ACTIVE") = "valid" ∧
    normalizeStatus (JVal.str "Dead") = "invalid" ∧
    normalizeStatus (JVal.str "something-else") = "unknown" :=
  ⟨(normalizeStatus_vocab_thm (JVal.str "ACTIVE")).1 rfl (by decide),
   (normalizeStatus_vocab_thm (JVal.str "Dead")).2.1 rfl (by decide),
   (normalizeStatus_vocab_thm (JVal.str "something-else")).2.2
     (Or.inr ⟨by decide, by decide⟩)⟩

/-- C8: `normalizeResult` is total, its status is always one of the three
canonical values, and when every candidate field probe comes up empty it
returns the fully-unknown placeholder result. -/
theorem normalizeResult_total_thm (item : JVal) :
    ((normalizeResult item).status = "valid" ∨
     (normalizeResult item).status = "invalid" ∨
     (normalizeResult item).status = "unknown") ∧
    (pick item linkKeys = none → pick item statusKeys = none →
      pick item reasonKeys = none →
      normalizeResult item = ⟨"(unknown link)", "unknown", none⟩) := by
  constructor
  · have h := normalizeStatus_mem ((pick item statusKeys).getD JVal.undef)
    simpa [normalizeResult] using h
  · intro h1 h2 h3
    simp [normalizeResult, h1, h2, h3]
    rfl

theorem normalizeResult_total_witness :
    normalizeResult (JVal.num 7) = ⟨"(unknown link)", "unknown", none⟩ :=
  (normalizeResult_total_thm (JVal.num 7)).2 rfl rfl rfl

/-- Unfolding: a line arriving at an empty open chunk is adopted as the new
open chunk without a boundary test. -/
theorem chunkLinesGo_cons_empty (maxLen : Nat) (line : String) (rest : List String) :
    chunkLinesGo maxLen (line :: rest) "" = chunkLinesGo maxLen rest line := by
  simp [chunkLinesGo]

/-- Unfolding: a line arriving at a non-empty open chunk either closes it
(when the joined text would exceed `maxLen`) or is appended to it. -/
theorem chunkLinesGo_cons_of_ne (maxLen : Nat) (line : String) (rest : List String)
    (current : String) (hemp : current ≠ "") :
    chunkLinesGo maxLen (line :: rest) current =
      if (current ++ "\n" ++ line).length > maxLen then
        current :: chunkLinesGo maxLen rest line
      else chunkLinesGo maxLen rest (current ++ "\n" ++ line) := by
  simp only [chunkLinesGo]
  rw [if_pos hemp]
  by_cases hbig : (current ++ "\n" ++ line).length > maxLen
  · rw [if_pos ⟨hbig, hemp⟩, if_pos hbig]
  · rw [if_neg (fun hand => hbig hand.1), if_neg hbig]

/-- Invariant of the chunking loop: every produced chunk longer than
`maxLen` is one of the input lines (the open chunk satisfies the same
invariant). -/
theorem chunkLinesGo_oversized (maxLen : Nat) (fullLines : List String) :
    ∀ (rest : List String) (current : String),
      (maxLen < current.length → current ∈ fullLines) →
      (∀ l ∈ rest, l ∈ fullLines) →
      ∀ c ∈ chunkLinesGo maxLen rest current, maxLen < c.length →
        c ∈ fullLines := by
  intro rest
  induction rest with
  | nil =>
    intro current hcur _ c hc hlen
    unfold chunkLinesGo at hc
    split at hc
    · rw [List.mem_singleton] at hc
      exact hc ▸ hcur (hc ▸ hlen)
    · cases hc
  | cons line rest ih =>
    intro current hcur hrest c hc hlen
    by_cases hemp : current = ""
    · subst hemp
      rw [chunkLinesGo_cons_empty] at hc
      exact ih line (fun _ => hrest line (by simp))
        (fun l hl => hrest l (by simp [hl])) c hc hlen
    · rw [chunkLinesGo_cons_of_ne maxLen line rest current hemp] at hc
      by_cases hbig : (current ++ "\n" ++ line).length > maxLen
      · rw [if_pos hbig] at hc
        rcases List.mem_cons.1 hc with rfl | hc'
        · exact hcur hlen
        · exact ih line (fun _ => hrest line (by simp))
            (fun l hl => hrest l (by simp [hl])) c hc' hlen
      · rw [if_neg hbig] at hc
        exact ih (current ++ "\n" ++ line) (fun hgt => absurd hgt hbig)
          (fun l hl => hrest l (by simp [hl])) c hc hlen

/-- C4: `chunkLines` never splits a line: every returned chunk either fits in
`maxLen` characters or is a single oversized input line; the empty input
yields zero chunks; and the spec's concrete example holds. -/
theorem chunkLines_spec_thm (lines : List String) (maxLen : Nat)
    (hpos : 0 < maxLen) :
    (∀ c ∈ chunkLines lines maxLen,
      c.length ≤ maxLen ∨ (c ∈ lines ∧ maxLen < c.length)) ∧
    chunkLines ([] : List String) maxLen = [] ∧
    chunkLines ["12345", "67890", "abcde"] 11 = ["12345\n67890", "abcde"] := by
  refine ⟨?_, by simp [chunkLines, chunkLinesGo], by decide⟩
  intro c hc
  by_cases h : c.length ≤ maxLen
  · exact Or.inl h
  · rw [Nat.not_le] at h
    refine Or.inr ⟨?_, h⟩
    refine chunkLinesGo_oversized maxLen lines lines "" ?_ (fun l hl => hl) c hc h
    intro habs
    exact absurd habs (by simp)

theorem chunkLines_spec_witness :
    (∀ c ∈ chunkLines ["ab"] 1,
      c.length ≤ 1 ∨ (c ∈ ["ab"] ∧ 1 < c.length)) ∧
    chunkLines ([] : List String) 1 = [] ∧
    chunkLines ["12345", "67890", "abcde"] 11 = ["12345\n67890", "abcde"] :=
  chunkLines_spec_thm ["ab"] 1 (by decide)

theorem joinLines_cons_cons (a b : String) (rest : List String) :
    joinLines (a :: b :: rest) = a ++ "\n" ++ joinLines (b :: rest) := by
  cases rest <;> rfl

theorem length_le_joinLines (l : String) (rest : List String) :
    l.length ≤ (joinLines (l :: rest)).length := by
  cases rest with
  | nil => exact Nat.le_refl _
  | cons b bs =>
    rw [joinLines_cons_cons, String.length_append, String.length_append]
    omega

theorem joinLines_glue (a b : String) (rest : List String) :
    joinLines ((a ++ "\n" ++ b) :: rest) = joinLines (a :: b :: rest) := by
  cases rest with
  | nil => rfl
  | cons c cs =>
    rw [joinLines_cons_cons, joinLines_cons_cons a b,
      joinLines_cons_cons b c]
    simp [String.append_assoc]

theorem string_ne_empty_of_length_pos {s : String} (h : 0 < s.length) :
    s ≠ "" := by
  intro heq
  rw [heq] at h
  cases h

/-- When the whole remaining text fits in one chunk, the loop emits exactly
the joined text. -/
theorem chunkLinesGo_fits (maxLen : Nat) :
    ∀ (rest : List String) (current : String), current ≠ "" →
      (joinLines (current :: rest)).length ≤ maxLen →
      chunkLinesGo maxLen rest current = [joinLines (current :: rest)] := by
  intro rest
  induction rest with
  | nil =>
    intro current hc _
    unfold chunkLinesGo
    rw [if_pos hc]
    rfl
  | cons line rest ih =>
    intro current hc hlen
    have hjoin : joinLines (current :: line :: rest) =
        current ++ "\n" ++ joinLines (line :: rest) := joinLines_cons_cons _ _ _
    have hnextlen : (current ++ "\n" ++ line).length ≤ maxLen := by
      refine Nat.le_trans ?_ hlen
      rw [hjoin, String.length_append, String.length_append,
        String.length_append, String.length_append]
      have := length_le_joinLines line rest
      omega
    have hnext_ne : (current ++ "\n" ++ line) ≠ "" := by
      refine string_ne_empty_of_length_pos ?_
      rw [String.length_append, String.length_append]
      have : ("\n" : String).length = 1 := rfl
      omega
    rw [chunkLinesGo_cons_of_ne maxLen line rest current hc,
      if_neg (Nat.not_lt.2 hnextlen)]
    rw [ih (current ++ "\n" ++ line) hnext_ne (by rw [joinLines_glue]; exact hjoin ▸ hlen),
      joinLines_glue]

/-- C2 counterexample: with no results and the positive bound `maxLen = 1`,
the blank header-separator line (the last line of the report for an empty
result set) is dropped at a chunk boundary, so rejoining the chunks does not
reproduce the original line sequence. -/
theorem format_chunk_rejoin_cex :
    joinLines (chunkLines (buildBulkLines [] (some true)) 1) ≠
      joinLines (buildBulkLines [] (some true)) := by decide

/-- A body line is never empty: the status glyph alone has three
characters. -/
theorem fmtLine_ne_empty (r : LinkResult) : fmtLine r ≠ "" := by
  refine string_ne_empty_of_length_pos ?_
  unfold fmtLine
  have h3 : (if r.status == "valid" then "[V]"
      else if r.status == "invalid" then "[X]" else "[?]").length = 3 := by
    split
    · rfl
    · split <;> rfl
  have hsp : (" " : String).length = 1 := rfl
  rw [String.length_append, String.length_append, h3, hsp]
  omega

/-- Over all-non-empty lines the chunking loop loses nothing: the produced
chunk list is non-empty and rejoins to exactly the joined input, for every
`maxLen` — chunk boundaries only replace a line break. -/
theorem chunkLinesGo_rejoin (maxLen : Nat) :
    ∀ (rest : List String) (current : String), current ≠ "" →
      (∀ l ∈ rest, l ≠ "") →
      chunkLinesGo maxLen rest current ≠ [] ∧
      joinLines (chunkLinesGo maxLen rest current) =
        joinLines (current :: rest) := by
  intro rest
  induction rest with
  | nil =>
    intro current hc _
    unfold chunkLinesGo
    rw [if_pos hc]
    exact ⟨List.cons_ne_nil _ _, rfl⟩
  | cons line rest ih =>
    intro current hc hrest
    have hline : line ≠ "" := hrest line (by simp)
    have hrest2 : ∀ l ∈ rest, l ≠ "" := fun l hl => hrest l (by simp [hl])
    rw [chunkLinesGo_cons_of_ne maxLen line rest current hc]
    by_cases hbig : (current ++ "\n" ++ line).length > maxLen
    · rw [if_pos hbig]
      obtain ⟨hne2, hjoin2⟩ := ih line hline hrest2
      refine ⟨List.cons_ne_nil _ _, ?_⟩
      cases hcs : chunkLinesGo maxLen rest line with
      | nil => exact absurd hcs hne2
      | cons c0 cs0 =>
        rw [hcs] at hjoin2
        rw [joinLines_cons_cons, hjoin2, joinLines_cons_cons]
    · rw [if_neg hbig]
      have hnext : (current ++ "\n" ++ line) ≠ "" := by
        refine string_ne_empty_of_length_pos ?_
        have hn : ("\n" : String).length = 1 := rfl
        rw [String.length_append, String.length_append, hn]
        omega
      obtain ⟨hne2, hjoin2⟩ := ih (current ++ "\n" ++ line) hnext hrest2
      refine ⟨hne2, ?_⟩
      rw [hjoin2, joinLines_glue]

/-- When the joined header block fits in `maxLen`, the loop absorbs the four
header lines and the blank separator into the open chunk without ever
closing it. -/
theorem chunkLinesGo_through_header (maxLen : Nat) (l1 l2 l3 : String)
    (body : List String) (current : String) (hc : current ≠ "")
    (hlen : (current ++ "\n" ++ l1 ++ "\n" ++ l2 ++ "\n" ++ l3 ++ "\n").length
      ≤ maxLen) :
    chunkLinesGo maxLen (l1 :: l2 :: l3 :: "" :: body) current =
      chunkLinesGo maxLen body
        (current ++ "\n" ++ l1 ++ "\n" ++ l2 ++ "\n" ++ l3 ++ "\n") := by
  have hn : ("\n" : String).length = 1 := rfl
  have h0 : ("" : String).length = 0 := rfl
  simp only [String.length_append, hn] at hlen
  have hc1 : (current ++ "\n" ++ l1) ≠ "" := by
    refine string_ne_empty_of_length_pos ?_
    simp only [String.length_append, hn]
    omega
  have hb1 : ¬ (current ++ "\n" ++ l1).length > maxLen := by
    simp only [String.length_append, hn]
    omega
  have hc2 : (current ++ "\n" ++ l1 ++ "\n" ++ l2) ≠ "" := by
    refine string_ne_empty_of_length_pos ?_
    simp only [String.length_append, hn]
    omega
  have hb2 : ¬ (current ++ "\n" ++ l1 ++ "\n" ++ l2).length > maxLen := by
    simp only [String.length_append, hn]
    omega
  have hc3 : (current ++ "\n" ++ l1 ++ "\n" ++ l2 ++ "\n" ++ l3) ≠ "" := by
    refine string_ne_empty_of_length_pos ?_
    simp only [String.length_append, hn]
    omega
  have hb3 : ¬ (current ++ "\n" ++ l1 ++ "\n" ++ l2 ++ "\n" ++ l3).length
      > maxLen := by
    simp only [String.length_append, hn]
    omega
  have hb4 : ¬ (current ++ "\n" ++ l1 ++ "\n" ++ l2 ++ "\n" ++ l3
      ++ "\n" ++ "").length > maxLen := by
    simp only [String.length_append, hn, h0]
    omega
  rw [chunkLinesGo_cons_of_ne maxLen l1 _ current hc, if_neg hb1,
    chunkLinesGo_cons_of_ne maxLen l2 _ _ hc1, if_neg hb2,
    chunkLinesGo_cons_of_ne maxLen l3 _ _ hc2, if_neg hb3,
    chunkLinesGo_cons_of_ne maxLen "" body _ hc3, if_neg hb4,
    String.append_empty]

/-- A report of four non-empty header lines, the blank separator and a
non-empty-lined body rejoins exactly whenever the joined header block fits
in `maxLen`; the body itself may span any number of chunks. -/
theorem rejoin_of_header_fits (maxLen : Nat) (l0 l1 l2 l3 : String)
    (body : List String) (h0 : l0 ≠ "") (hbody : ∀ l ∈ body, l ≠ "")
    (hlen : (l0 ++ "\n" ++ l1 ++ "\n" ++ l2 ++ "\n" ++ l3 ++ "\n").length
      ≤ maxLen) :
    joinLines (chunkLines (l0 :: l1 :: l2 :: l3 :: "" :: body) maxLen) =
      joinLines (l0 :: l1 :: l2 :: l3 :: "" :: body) := by
  rw [chunkLines, chunkLinesGo_cons_empty,
    chunkLinesGo_through_header maxLen l1 l2 l3 body l0 h0 hlen]
  have hH : (l0 ++ "\n" ++ l1 ++ "\n" ++ l2 ++ "\n" ++ l3 ++ "\n") ≠ "" := by
    refine string_ne_empty_of_length_pos ?_
    have hn : ("\n" : String).length = 1 := rfl
    simp only [String.length_append, hn]
    omega
  obtain ⟨hne2, hjoin2⟩ := chunkLinesGo_rejoin maxLen body
    (l0 ++ "\n" ++ l1 ++ "\n" ++ l2 ++ "\n" ++ l3 ++ "\n") hH hbody
  rw [hjoin2,
    ← String.append_empty (l0 ++ "\n" ++ l1 ++ "\n" ++ l2 ++ "\n" ++ l3 ++ "\n"),
    joinLines_glue, joinLines_glue, joinLines_glue, joinLines_glue]

/-- C2 (amended): `buildBulkLines` with `showInvalid` true followed by
`chunkLines` and rejoining with line breaks reproduces exactly the original
line sequence for every `maxLen` at least the length of the joined five-line
header block (the four count lines and the blank separator) — in particular
in every multi-chunk rendering of a long body.  For smaller positive
`maxLen` the identity can fail: a chunk boundary landing on the blank
separator line drops it. -/
theorem format_chunk_rejoin_amended (results : List LinkResult) (maxLen : Nat)
    (h : (joinLines ((buildBulkLines results (some true)).take 5)).length
      ≤ maxLen) :
    joinLines (chunkLines (buildBulkLines results (some true)) maxLen) =
      joinLines (buildBulkLines results (some true)) := by
  have hsi : ((some true : Option Bool) != some false) = true := rfl
  have hbl : buildBulkLines results (some true) =
      ("Done. Total: " ++ toString results.length) ::
      ("Valid: " ++
        toString (results.filter (fun r => r.status == "valid")).length) ::
      ("Invalid: " ++
        toString (results.filter (fun r => r.status == "invalid")).length) ::
      ("Unknown: " ++
        toString (results.filter (fun r => r.status == "unknown")).length) ::
      "" :: (orderResults results).map fmtLine := by
    simp [buildBulkLines, hsi]
  have hl0 : ("Done. Total: " ++ toString results.length) ≠ "" := by
    refine string_ne_empty_of_length_pos ?_
    have hd : ("Done. Total: " : String).length = 13 := rfl
    rw [String.length_append, hd]
    omega
  have hbody : ∀ l ∈ (orderResults results).map fmtLine, l ≠ "" := by
    intro l hl
    obtain ⟨r, _, rfl⟩ := List.mem_map.1 hl
    exact fmtLine_ne_empty r
  rw [hbl] at h
  have hlen : (("Done. Total: " ++ toString results.length) ++ "\n" ++
      ("Valid: " ++
        toString (results.filter (fun r => r.status == "valid")).length) ++ "\n" ++
      ("Invalid: " ++
        toString (results.filter (fun r => r.status == "invalid")).length) ++ "\n" ++
      ("Unknown: " ++
        toString (results.filter (fun r => r.status == "unknown")).length) ++
      "\n").length ≤ maxLen := by
    have hn : ("\n" : String).length = 1 := rfl
    have h0 : ("" : String).length = 0 := rfl
    have htake : ∀ a b c d : String, ∀ body : List String,
        (a :: b :: c :: d :: "" :: body).take 5 = [a, b, c, d, ""] := by
      intro a b c d body
      rfl
    rw [htake] at h
    have hjl : ∀ a b c d : String, joinLines [a, b, c, d, ""] =
        a ++ "\n" ++ (b ++ "\n" ++ (c ++ "\n" ++ (d ++ "\n" ++ ""))) := by
      intro a b c d
      rfl
    rw [hjl] at h
    simp only [String.length_append, hn, h0] at h ⊢
    omega
  rw [hbl]
  exact rejoin_of_header_fits maxLen _ _ _ _ ((orderResults results).map fmtLine)
    hl0 hbody hlen

theorem format_chunk_rejoin_witness :
    joinLines (chunkLines (buildBulkLines
      ([⟨"l1", "valid", none⟩, ⟨"l2", "unknown", none⟩] : List LinkResult)
      (some true)) 50) =
      joinLines (buildBulkLines
        ([⟨"l1", "valid", none⟩, ⟨"l2", "unknown", none⟩] : List LinkResult)
        (some true)) :=
  format_chunk_rejoin_amended
    ([⟨"l1", "valid", none⟩, ⟨"l2", "unknown", none⟩] : List LinkResult)
    50 (by decide)

theorem insertByRank_append (r : LinkResult) (A B : List LinkResult)
    (hA : ∀ a ∈ A, rank a.status < rank r.status)
    (hB : ∀ b ∈ B.head?, rank r.status ≤ rank b.status) :
    insertByRank r (A ++ B) = A ++ r :: B := by
  induction A with
  | nil =>
    cases B with
    | nil => rfl
    | cons b bs =>
      rw [List.nil_append, List.nil_append]
      show (if rank r.status ≤ rank b.status then r :: b :: bs
            else b :: insertByRank r bs) = r :: b :: bs
      rw [if_pos (hB b rfl)]
  | cons a as ih =>
    have ha := hA a (by simp)
    rw [List.cons_append, List.cons_append]
    show (if rank r.status ≤ rank a.status then r :: a :: (as ++ B)
          else a :: insertByRank r (as ++ B)) = a :: (as ++ r :: B)
    rw [if_neg (Nat.not_le.2 ha), ih (fun x hx => hA x (by simp [hx]))]

theorem status_forall_filter (results : List LinkResult) (st : String) :
    ∀ x ∈ results.filter (fun r => r.status == st), x.status = st := by
  intro x hx
  exact eq_of_beq (List.mem_filter.1 hx).2

/-- Stable three-way grouping: `orderResults` on three-valued statuses is
exactly the valid entries, then the invalid ones, then the unknown ones,
each group in original relative order. -/
theorem orderResults_eq_filters (results : List LinkResult)
    (hst : ∀ r ∈ results,
      r.status = "valid" ∨ r.status = "invalid" ∨ r.status = "unknown") :
    orderResults results =
      results.filter (fun r => r.status == "valid") ++
      (results.filter (fun r => r.status == "invalid") ++
       results.filter (fun r => r.status == "unknown")) := by
  induction results with
  | nil => rfl
  | cons r rs ih =>
    have hr := hst r (by simp)
    have ih' := ih (fun x hx => hst x (by simp [hx]))
    have hfold : orderResults (r :: rs) = insertByRank r (orderResults rs) := rfl
    rw [hfold, ih']
    have hV := status_forall_filter rs "valid"
    have hI := status_forall_filter rs "invalid"
    have hU := status_forall_filter rs "unknown"
    rcases hr with h | h | h
    · rw [List.filter_cons_of_pos (by simp [h]),
        List.filter_cons_of_neg (by simp [h]),
        List.filter_cons_of_neg (by simp [h])]
      have hins := insertByRank_append r []
        (rs.filter (fun x => x.status == "valid") ++
         (rs.filter (fun x => x.status == "invalid") ++
          rs.filter (fun x => x.status == "unknown")))
        (by intro a ha; cases ha)
        (by intro b _
            rw [h]
            exact Nat.zero_le _)
      simpa using hins
    · rw [List.filter_cons_of_neg (by simp [h]),
        List.filter_cons_of_pos (by simp [h]),
        List.filter_cons_of_neg (by simp [h])]
      have hins := insertByRank_append r
        (rs.filter (fun x => x.status == "valid"))
        (rs.filter (fun x => x.status == "invalid") ++
         rs.filter (fun x => x.status == "unknown"))
        (by intro a hamem
            rw [hV a hamem, h]
            decide)
        (by intro b hbmem
            have hmem := List.mem_of_mem_head? hbmem
            rcases List.mem_append.1 hmem with hm | hm
            · rw [hI b hm, h]
            · rw [hU b hm, h]
              decide)
      simp only [List.cons_append]
      exact hins
    · rw [List.filter_cons_of_neg (by simp [h]),
        List.filter_cons_of_neg (by simp [h]),
        List.filter_cons_of_pos (by simp [h])]
      have hins := insertByRank_append r
        (rs.filter (fun x => x.status == "valid") ++
         rs.filter (fun x => x.status == "invalid"))
        (rs.filter (fun x => x.status == "unknown"))
        (by intro a hamem
            rcases List.mem_append.1 hamem with hm | hm
            · rw [hV a hm, h]
              decide
            · rw [hI a hm, h]
              decide)
        (by intro b hbmem
            rw [hU b (List.mem_of_mem_head? hbmem), h])
      simp only [List.append_assoc] at hins
      exact hins

/-- C5: the displayed body of `buildBulkLines` lists all valid results first,
then all invalid, then all unknown, as a stable grouping in which results of
equal status keep their original relative order. -/
theorem orderResults_stable_thm (results : List LinkResult)
    (hst : ∀ r ∈ results,
      r.status = "valid" ∨ r.status = "invalid" ∨ r.status = "unknown") :
    orderResults results =
      results.filter (fun r => r.status == "valid") ++
      (results.filter (fun r => r.status == "invalid") ++
       results.filter (fun r => r.status == "unknown")) ∧
    (buildBulkLines results (some true)).drop 5 =
      (orderResults results).map fmtLine := by
  refine ⟨orderResults_eq_filters results hst, ?_⟩
  have hsi : (some true != some false) = true := rfl
  simp [buildBulkLines, hsi]

theorem orderResults_stable_witness :
    orderResults ([⟨"l1", "unknown", none⟩, ⟨"l2", "invalid", none⟩,
        ⟨"l3", "valid", none⟩] : List LinkResult) =
      ([⟨"l1", "unknown", none⟩, ⟨"l2", "invalid", none⟩,
        ⟨"l3", "valid", none⟩] : List LinkResult).filter
          (fun r => r.status == "valid") ++
      (([⟨"l1", "unknown", none⟩, ⟨"l2", "invalid", none⟩,
        ⟨"l3", "valid", none⟩] : List LinkResult).filter
          (fun r => r.status == "invalid") ++
       ([⟨"l1", "unknown", none⟩, ⟨"l2", "invalid", none⟩,
        ⟨"l3", "valid", none⟩] : List LinkResult).filter
          (fun r => r.status == "unknown")) ∧
    (buildBulkLines ([⟨"l1", "unknown", none⟩, ⟨"l2", "invalid", none⟩,
        ⟨"l3", "valid", none⟩] : List LinkResult) (some true)).drop 5 =
      (orderResults ([⟨"l1", "unknown", none⟩, ⟨"l2", "invalid", none⟩,
        ⟨"l3", "valid", none⟩] : List LinkResult)).map fmtLine :=
  orderResults_stable_thm
    ([⟨"l1", "unknown", none⟩, ⟨"l2", "invalid", none⟩,
      ⟨"l3", "valid", none⟩] : List LinkResult)
    (by decide)

/-- C6: with `showInvalid` false, invalid entries are absent from the body
lines, yet the header counts cover the full result set (the invalid count
annotated "(hidden)"), and the header is the total line, valid count,
invalid count, unknown count and a blank separator, in that order. -/
theorem buildBulkLines_hidden_thm (results : List LinkResult)
    (hst : ∀ r ∈ results,
      r.status = "valid" ∨ r.status = "invalid" ∨ r.status = "unknown") :
    buildBulkLines results (some false) =
      ("Done. Total: " ++ toString results.length) ::
      ("Valid: " ++ toString (results.countP (fun r => r.status == "valid"))) ::
      ("Invalid: " ++ toString (results.countP (fun r => r.status == "invalid")) ++
        " (hidden)") ::
      ("Unknown: " ++ toString (results.countP (fun r => r.status == "unknown"))) ::
      "" ::
      ((results.filter (fun r => r.status == "valid") ++
        results.filter (fun r => r.status == "unknown")).map fmtLine) := by
  have hord := orderResults_eq_filters results hst
  have hpV : ∀ a : LinkResult,
      (a.status != "invalid" && a.status == "valid") = (a.status == "valid") := by
    intro a
    cases hb : (a.status == "valid") with
    | true => rw [eq_of_beq hb]; decide
    | false => simp [hb]
  have hpI : ∀ a : LinkResult,
      (a.status != "invalid" && a.status == "invalid") = false := by
    intro a
    cases hb : (a.status == "invalid") with
    | true => rw [eq_of_beq hb]; decide
    | false => simp [hb]
  have hpU : ∀ a : LinkResult,
      (a.status != "invalid" && a.status == "unknown") = (a.status == "unknown") := by
    intro a
    cases hb : (a.status == "unknown") with
    | true => rw [eq_of_beq hb]; decide
    | false => simp [hb]
  simp [buildBulkLines, hord, List.filter_append, List.countP_eq_length_filter,
    hpV, hpI, hpU]

theorem buildBulkLines_hidden_witness :
    buildBulkLines ([⟨"l1", "unknown", none⟩, ⟨"l2", "invalid", none⟩,
        ⟨"l3", "valid", none⟩] : List LinkResult) (some false) =
      ("Done. Total: " ++ toString ([⟨"l1", "unknown", none⟩,
          ⟨"l2", "invalid", none⟩, ⟨"l3", "valid", none⟩] : List LinkResult).length) ::
      ("Valid: " ++ toString (([⟨"l1", "unknown", none⟩, ⟨"l2", "invalid", none⟩,
          ⟨"l3", "valid", none⟩] : List LinkResult).countP
            (fun r => r.status == "valid"))) ::
      ("Invalid: " ++ toString (([⟨"l1", "unknown", none⟩, ⟨"l2", "invalid", none⟩,
          ⟨"l3", "valid", none⟩] : List LinkResult).countP
            (fun r => r.status == "invalid")) ++ " (hidden)") ::
      ("Unknown: " ++ toString (([⟨"l1", "unknown", none⟩, ⟨"l2", "invalid", none⟩,
          ⟨"l3", "valid", none⟩] : List LinkResult).countP
            (fun r => r.status == "unknown"))) ::
      "" ::
      ((([⟨"l1", "unknown", none⟩, ⟨"l2", "invalid", none⟩,
          ⟨"l3", "valid", none⟩] : List LinkResult).filter
            (fun r => r.status == "valid") ++
        ([⟨"l1", "unknown", none⟩, ⟨"l2", "invalid", none⟩,
          ⟨"l3", "valid", none⟩] : List LinkResult).filter
            (fun r => r.status == "unknown")).map fmtLine) :=
  buildBulkLines_hidden_thm
    ([⟨"l1", "unknown", none⟩, ⟨"l2", "invalid", none⟩,
      ⟨"l3", "valid", none⟩] : List LinkResult)
    (by decide)

/-- C3: the code's shape detection coincides with the spec's prioritized
rule chain on every payload and request list: rule 1 (payload is a list),
rule 2 ("results"/"data"/"items" in that order), rule 3 (bucket synthesis,
adopted only when non-empty), rule 4 (by-link synthesis over requested keys,
adopted only when non-empty), rule 5 (null fallback). -/
theorem extractBulkRows_matches_spec (payload : JVal) (links : List String) :
    extractBulkRows payload links = extractBulkRowsSpec payload links := by
  unfold extractBulkRows extractBulkRowsSpec ruleDirectList ruleRowsField
    ruleBuckets ruleByLink
  cases payload <;> try rfl
  case obj fields =>
  have hobj : asArr (JVal.obj fields) = none := rfl
  cases h1 : asArr (getField (JVal.obj fields) "results") with
  | some es => rfl
  | none =>
  cases h2 : asArr (getField (JVal.obj fields) "data") with
  | some es => rfl
  | none =>
  cases h3 : asArr (getField (JVal.obj fields) "items") with
  | some es => rfl
  | none =>
  cases hcond : ((asArr (getField (JVal.obj fields) "valid")).isSome ||
      (asArr (getField (JVal.obj fields) "invalid")).isSome ||
      (asArr (getField (JVal.obj fields) "unknown")).isSome) with
  | false =>
    have hempty : bucketRowsOf (JVal.obj fields) = [] := by
      unfold bucketRowsOf
      rw [hcond]
      rfl
    cases hr : (fields.filterMap (byLinkRow links)).isEmpty with
    | true => simp [hobj, Option.orElse, hcond, hempty, hr]
    | false => simp [hobj, Option.orElse, hcond, hempty, hr]
  | true =>
    cases he : (bucketRowsOf (JVal.obj fields)).isEmpty with
    | true =>
      cases hr : (fields.filterMap (byLinkRow links)).isEmpty with
      | true => simp [hobj, Option.orElse, hcond, he, hr]
      | false => simp [hobj, Option.orElse, hcond, he, hr]
    | false => simp [hobj, Option.orElse, hcond, he]

theorem byLinkGet_link {ns : List LinkResult} {l : String} {r : LinkResult}
    (h : byLinkGet ns l = some r) : r.link = l := by
  unfold byLinkGet at h
  have hp := @List.find?_some LinkResult (fun x => x.link == l) r ns.reverse h
  exact eq_of_beq hp

/-- The re-keying placeholder evaluates, for a non-empty link string, to the
literal `{link, status: "unknown", reason: "Missing in bulk response"}`. -/
theorem missingResult_eq {link : String} (h : link ≠ "") :
    missingResult link = ⟨link, "unknown", some "Missing in bulk response"⟩ := by
  have hb : (link != "") = true := bne_iff_ne.2 h
  unfold missingResult normalizeResult pick
  simp only [linkKeys, statusKeys, reasonKeys, pickLoop, getField, isPickable,
    truthy, jsToString]
  simp [List.find?, hb, normalizeStatus, truthy, jsToString, jsToLower]
  decide

/-- C1 counterexample: an empty-array payload has recoverable rows under
rule 1, yet with a non-empty request the pipeline returns nothing (it falls
through to the next attempt instead of a full-length list); and a requested
empty-string link is re-keyed to the placeholder link "(unknown link)", not
to itself. -/
theorem reconcile_empty_rows_cex :
    extractBulkRows (JVal.arr []) ["a"] = some [] ∧
    reconcile (JVal.arr []) ["a"] = none ∧
    reconcile (JVal.arr [JVal.obj [("link", JVal.str "x"),
        ("status", JVal.str "valid")]]) ["", "y"] =
      some [⟨"(unknown link)", "unknown", some "Missing in bulk response"⟩,
            ⟨"y", "unknown", some "Missing in bulk response"⟩] ∧
    "(unknown link)" ≠ "" := by
  refine ⟨rfl, rfl, by decide, by decide⟩

/-- C1 (amended): whenever the recovered row list is non-empty and every
requested link is a non-empty string, the pipeline returns a list of exactly
`requestedLinks.length` entries; whenever re-keying occurs (row count differs
from the request count) the i-th entry carries the i-th requested link, and
every link absent from the normalized rows maps to
`{link, status: "unknown", reason: "Missing in bulk response"}`. -/
theorem reconcile_rekey_amended (data : JVal) (links : List String)
    (rows : List JVal) (hrows : extractBulkRows data links = some rows)
    (hne : rows ≠ []) (hlinks : ∀ l ∈ links, l ≠ "") :
    ∃ out, reconcile data links = some out ∧ out.length = links.length ∧
      (rows.length ≠ links.length →
        ∀ (i : Nat) (h1 : i < links.length) (h2 : i < out.length),
          (out.get ⟨i, h2⟩).link = links.get ⟨i, h1⟩ ∧
          (byLinkGet (rows.map normalizeResult) (links.get ⟨i, h1⟩) = none →
            out.get ⟨i, h2⟩ =
              ⟨links.get ⟨i, h1⟩, "unknown",
                some "Missing in bulk response"⟩)) := by
  have hred : reconcile data links =
      (if (rows.map normalizeResult).length = links.length then
        some (rows.map normalizeResult)
      else if 0 < (rows.map normalizeResult).length then
        some (links.map (fun link =>
          (byLinkGet (rows.map normalizeResult) link).getD (missingResult link)))
      else none) := by
    unfold reconcile
    rw [hrows]
  by_cases hlen : (rows.map normalizeResult).length = links.length
  · rw [if_pos hlen] at hred
    refine ⟨rows.map normalizeResult, hred, hlen, ?_⟩
    intro hcontra
    exact absurd (by simpa using hlen) hcontra
  · have hpos : 0 < (rows.map normalizeResult).length := by
      rw [List.length_map, List.length_pos]
      exact hne
    rw [if_neg hlen, if_pos hpos] at hred
    refine ⟨_, hred, by rw [List.length_map], ?_⟩
    intro _ i h1 h2
    have hget : (links.map (fun link =>
        (byLinkGet (rows.map normalizeResult) link).getD
          (missingResult link))).get ⟨i, h2⟩ =
        (byLinkGet (rows.map normalizeResult) (links.get ⟨i, h1⟩)).getD
          (missingResult (links.get ⟨i, h1⟩)) := by
      simp
    cases hb : byLinkGet (rows.map normalizeResult) (links.get ⟨i, h1⟩) with
    | some r =>
      rw [hb, Option.getD_some] at hget
      refine ⟨?_, fun hnone => ?_⟩
      · rw [hget]
        exact byLinkGet_link hb
      · exact Option.noConfusion hnone
    | none =>
      rw [hb, Option.getD_none] at hget
      have hmem : links.get ⟨i, h1⟩ ∈ links := links.get_mem _ _
      have hmr := missingResult_eq (hlinks (links.get ⟨i, h1⟩) hmem)
      refine ⟨?_, fun _ => ?_⟩
      · rw [hget, hmr]
      · rw [hget, hmr]

theorem reconcile_rekey_witness :
    ∃ out, reconcile (JVal.arr [JVal.obj [("link", JVal.str "a"),
        ("status", JVal.str "valid")]]) ["a", "b"] = some out ∧
      out.length = (["a", "b"] : List String).length ∧
      (([JVal.obj [("link", JVal.str "a"),
          ("status", JVal.str "valid")]] : List JVal).length ≠
          (["a", "b"] : List String).length →
        ∀ (i : Nat) (h1 : i < (["a", "b"] : List String).length)
          (h2 : i < out.length),
          (out.get ⟨i, h2⟩).link = (["a", "b"] : List String).get ⟨i, h1⟩ ∧
          (byLinkGet (([JVal.obj [("link", JVal.str "a"),
              ("status", JVal.str "valid")]] : List JVal).map normalizeResult)
              ((["a", "b"] : List String).get ⟨i, h1⟩) = none →
            out.get ⟨i, h2⟩ =
              ⟨(["a", "b"] : List String).get ⟨i, h1⟩, "unknown",
                some "Missing in bulk response"⟩)) :=
  reconcile_rekey_amended
    (JVal.arr [JVal.obj [("link", JVal.str "a"), ("status", JVal.str "valid")]])
    ["a", "b"]
    [JVal.obj [("link", JVal.str "a"), ("status", JVal.str "valid")]]
    rfl (by simp) (by decide)

/-- Writing the freshly appended cell leaves a store of the same shape with
only that cell changed. -/
theorem set_append_singleton {α : Type} (l : List α) (a b : α) :
    (l ++ [a]).set l.length b = l ++ [b] := by
  induction l with
  | nil => rfl
  | cons x xs ih => simp [List.set, ih]

/-- C10: `orderResults` and `buildBulkLines` never mutate the caller's
array: every pre-existing store cell — in particular the input reference —
is unchanged, the sorted copy lives at a fresh reference, and the heap
version computes exactly the pure `buildBulkLines` of the input array. -/
theorem orderResults_pure_thm (store : Store) (i k : Nat) (opt : Option Bool)
    (hk : k < store.length) :
    (orderResultsS store i).1.get? k = store.get? k ∧
    (buildBulkLinesS store i opt).1.get? k = store.get? k ∧
    (buildBulkLinesS store i opt).2 = buildBulkLines (List.getD store i []) opt := by
  have hset : (store ++ [List.getD store i []]).set store.length
      (orderResults (List.getD store i [])) =
      store ++ [orderResults (List.getD store i [])] :=
    set_append_singleton store _ _
  have h1 : (orderResultsS store i).1.get? k = store.get? k := by
    unfold orderResultsS
    simp only [hset]
    rw [List.get?_eq_getElem?, List.get?_eq_getElem?,
      List.getElem?_append_left hk]
  have hcell : (orderResultsS store i).1.get? (orderResultsS store i).2 =
      some (orderResults (List.getD store i [])) := by
    unfold orderResultsS
    simp only [hset]
    rw [List.get?_eq_getElem?, List.getElem?_concat_length]
  refine ⟨h1, ?_, ?_⟩
  · unfold buildBulkLinesS
    exact h1
  · have hD : List.getD (orderResultsS store i).1 (orderResultsS store i).2 [] =
        orderResults (List.getD store i []) := by
      rw [List.getD_eq_get?, hcell]
      rfl
    simp only [buildBulkLinesS]
    rw [hD]
    simp only [buildBulkLines]

theorem orderResults_pure_witness :
    (orderResultsS [[⟨"a", "invalid", none⟩, ⟨"b", "valid", none⟩]] 0).1.get? 0 =
      List.get? [[⟨"a", "invalid", none⟩, ⟨"b", "valid", none⟩]] 0 ∧
    (buildBulkLinesS [[⟨"a", "invalid", none⟩, ⟨"b", "valid", none⟩]] 0 none).1.get? 0 =
      List.get? [[⟨"a", "invalid", none⟩, ⟨"b", "valid", none⟩]] 0 ∧
    (buildBulkLinesS [[⟨"a", "invalid", none⟩, ⟨"b", "valid", none⟩]] 0 none).2 =
      buildBulkLines
        (List.getD [[⟨"a", "invalid", none⟩, ⟨"b", "valid", none⟩]] 0 []) none :=
  orderResults_pure_thm [[⟨"a", "invalid", none⟩, ⟨"b", "valid", none⟩]] 0 0 none
    (by decide)

end Telecheck
